import Mathlib

/-!
Verification of the SIMON-128 / SPECK-128 SIMD bulk-encryption core
(`speck128_simd.cpp` and `simon_simd.cpp`).

The development shallowly embeds the SSE and NEON kernels.  A 128-bit
SIMD vector is a pair of 64-bit lanes; each lane is a `Nat` reduced
modulo `2 ^ 64`.  Every lane primitive is translated directly from the
corresponding intrinsic (`_mm_add_epi64`, `veorq_u64`, the shift/or
rotates, the `_mm_shuffle_epi8` / `vqtbl1q_u8` byte permutes, the
64-bit unpack instructions), and the cipher kernels are translated
statement by statement from the C++ sources.
-/

namespace SpeckSimd

/-- The lane modulus `2 ^ 64`. -/
def two64 : Nat := 2 ^ 64

theorem two64_eq : two64 = 18446744073709551616 := by norm_num [two64]

theorem two64_pos : 0 < two64 := by rw [two64_eq]; omega

/-- Lanewise XOR of two 64-bit lanes (`veorq_u64` / `_mm_xor_si128`). -/
def wxor (a b : Nat) : Nat := (a % two64) ^^^ (b % two64)

/-- Lanewise AND of two 64-bit lanes (`vandq_u64` / `_mm_and_si128`). -/
def wand (a b : Nat) : Nat := (a % two64) &&& (b % two64)

/-- Lanewise wrapping addition (`vaddq_u64` / `_mm_add_epi64`). -/
def wadd (a b : Nat) : Nat := (a + b) % two64

/-- Lanewise wrapping subtraction (`vsubq_u64` / `_mm_sub_epi64`). -/
def wsub (a b : Nat) : Nat := (a % two64 + (two64 - b % two64)) % two64

/-- Generic 64-bit rotate left by `r`, synthesized as
`(v <<< r) ||| (v >>> (64 - r))` with lanewise shifts, exactly as the
non-specialized `RotateLeft64<R>` template. -/
def rotl (r a : Nat) : Nat := (((a % two64) <<< r) % two64) ||| ((a % two64) >>> (64 - r))

/-- Generic 64-bit rotate right by `r`, synthesized as
`(v <<< (64 - r)) ||| (v >>> r)`, exactly as `RotateRight64<R>`. -/
def rotr (r a : Nat) : Nat := (((a % two64) <<< (64 - r)) % two64) ||| ((a % two64) >>> r)

theorem wxor_lt (a b : Nat) : wxor a b < two64 :=
  Nat.xor_lt_two_pow (Nat.mod_lt _ two64_pos) (Nat.mod_lt _ two64_pos)

theorem wand_lt (a b : Nat) : wand a b < two64 :=
  Nat.and_lt_two_pow _ (Nat.mod_lt _ two64_pos)

theorem wadd_lt (a b : Nat) : wadd a b < two64 := Nat.mod_lt _ two64_pos

theorem wsub_lt (a b : Nat) : wsub a b < two64 := Nat.mod_lt _ two64_pos

theorem rotl_lt (r a : Nat) : rotl r a < two64 := by
  have h1 : ((a % two64) <<< r) % two64 < two64 := Nat.mod_lt _ two64_pos
  have h2 : (a % two64) >>> (64 - r) < two64 := by
    rw [Nat.shiftRight_eq_div_pow]
    exact Nat.lt_of_le_of_lt (Nat.div_le_self _ _) (Nat.mod_lt _ two64_pos)
  exact Nat.or_lt_two_pow h1 h2

theorem rotr_lt (r a : Nat) : rotr r a < two64 := by
  have h1 : ((a % two64) <<< (64 - r)) % two64 < two64 := Nat.mod_lt _ two64_pos
  have h2 : (a % two64) >>> r < two64 := by
    rw [Nat.shiftRight_eq_div_pow]
    exact Nat.lt_of_le_of_lt (Nat.div_le_self _ _) (Nat.mod_lt _ two64_pos)
  exact Nat.or_lt_two_pow h1 h2

theorem pow_split {r : Nat} (hr : r ≤ 64) : (2 : Nat) ^ (64 - r) * 2 ^ r = two64 := by
  rw [← Nat.pow_add, two64]
  congr 1
  omega

/-- Closed form of the generic rotate left: the low `64 - r` bits are
shifted up and the high `r` bits wrap to the bottom. -/
theorem rotl_char {r x : Nat} (hr : r ≤ 64) (hx : x < two64) :
    rotl r x = x % 2 ^ (64 - r) * 2 ^ r + x / 2 ^ (64 - r) := by
  have hxm : x % two64 = x := Nat.mod_eq_of_lt hx
  have hdiv : x / 2 ^ (64 - r) < 2 ^ r := by
    apply Nat.div_lt_of_lt_mul
    rw [pow_split hr]
    exact hx
  unfold rotl
  rw [hxm, Nat.shiftLeft_eq, Nat.shiftRight_eq_div_pow, ← pow_split hr,
    Nat.mul_mod_mul_right]
  have h := Nat.mul_add_lt_is_or hdiv (x % 2 ^ (64 - r))
  rw [Nat.mul_comm ((2 : Nat) ^ r) (x % 2 ^ (64 - r))] at h
  exact h.symm

theorem rotr_eq_rotl {r : Nat} (hr : r ≤ 64) (a : Nat) : rotr r a = rotl (64 - r) a := by
  unfold rotr rotl
  rw [show 64 - (64 - r) = r from by omega]

theorem rotr_rotl {r x : Nat} (hr : r ≤ 64) (hx : x < two64) : rotr r (rotl r x) = x := by
  have hlt : rotl r x < two64 := rotl_lt r x
  rw [rotr_eq_rotl hr, rotl_char (by omega : 64 - r ≤ 64) hlt,
    rotl_char hr hx, show 64 - (64 - r) = r from by omega]
  have hdiv : x / 2 ^ (64 - r) < 2 ^ r := by
    apply Nat.div_lt_of_lt_mul
    rw [pow_split hr]
    exact hx
  have e1 : (x % 2 ^ (64 - r) * 2 ^ r + x / 2 ^ (64 - r)) % 2 ^ r = x / 2 ^ (64 - r) := by
    rw [Nat.mul_comm, Nat.mul_add_mod, Nat.mod_eq_of_lt hdiv]
  have e2 : (x % 2 ^ (64 - r) * 2 ^ r + x / 2 ^ (64 - r)) / 2 ^ r = x % 2 ^ (64 - r) := by
    rw [Nat.mul_comm, Nat.mul_add_div (Nat.pos_pow_of_pos r (by omega)),
      Nat.div_eq_of_lt hdiv, Nat.add_zero]
  rw [e1, e2]
  calc x / 2 ^ (64 - r) * 2 ^ (64 - r) + x % 2 ^ (64 - r)
      = 2 ^ (64 - r) * (x / 2 ^ (64 - r)) + x % 2 ^ (64 - r) := by
        rw [Nat.mul_comm]
    _ = x := Nat.div_add_mod x (2 ^ (64 - r))

theorem rotl_rotr {r x : Nat} (hr : r ≤ 64) (hx : x < two64) : rotl r (rotr r x) = x := by
  have h2 : 64 - r ≤ 64 := by omega
  have h := rotr_rotl h2 hx
  rw [rotr_eq_rotl h2, show 64 - (64 - r) = r from by omega] at h
  rw [rotr_eq_rotl hr]
  exact h

theorem wxor_of_lt {a : Nat} (ha : a < two64) (b : Nat) : wxor a b = a ^^^ b % two64 := by
  show a % two64 ^^^ b % two64 = a ^^^ b % two64
  rw [Nat.mod_eq_of_lt ha]

theorem wxor_cancel {a : Nat} (ha : a < two64) (b : Nat) : wxor (wxor a b) b = a := by
  rw [wxor_of_lt (wxor_lt a b), wxor_of_lt ha, Nat.xor_assoc, Nat.xor_self, Nat.xor_zero]

theorem xor_shuffle_cancel (a b c : Nat) : (((a ^^^ b) ^^^ c) ^^^ b) ^^^ c = a := by
  calc (((a ^^^ b) ^^^ c) ^^^ b) ^^^ c
      = ((a ^^^ b) ^^^ (c ^^^ b)) ^^^ c := by rw [Nat.xor_assoc (a ^^^ b)]
    _ = ((a ^^^ b) ^^^ (b ^^^ c)) ^^^ c := by rw [Nat.xor_comm c b]
    _ = (((a ^^^ b) ^^^ b) ^^^ c) ^^^ c := by rw [Nat.xor_assoc (a ^^^ b) b c]
    _ = (a ^^^ c) ^^^ c := by rw [Nat.xor_assoc a b b, Nat.xor_self, Nat.xor_zero]
    _ = a := by rw [Nat.xor_assoc, Nat.xor_self, Nat.xor_zero]

/-- Applying `⊕ b` then `⊕ c` twice in the shuffled order cancels. -/
theorem wxor_shuffle_cancel {a : Nat} (ha : a < two64) (b c : Nat) :
    wxor (wxor (wxor (wxor a b) c) b) c = a := by
  rw [wxor_of_lt (wxor_lt _ _), wxor_of_lt (wxor_lt _ _), wxor_of_lt (wxor_lt _ _),
    wxor_of_lt ha]
  exact xor_shuffle_cancel a (b % two64) (c % two64)

theorem wsub_wadd {a : Nat} (ha : a < two64) (b : Nat) : wsub (wadd a b) b = a := by
  unfold wsub wadd
  rw [two64_eq] at *
  omega

/-! ### 128-bit vectors as two 64-bit lanes

A 128-bit SIMD register (`uint64x2_t` / `__m128i`) is a pair of 64-bit
lanes.  `lo` is the low lane (bytes 0..7 of the register), `hi` the
high lane (bytes 8..15). -/

structure V128 where
  lo : Nat
  hi : Nat
deriving DecidableEq

/-- Lanewise XOR (`veorq_u64` / `_mm_xor_si128`). -/
def vxor (a b : V128) : V128 := ⟨wxor a.lo b.lo, wxor a.hi b.hi⟩

/-- Lanewise AND (`vandq_u64` / `_mm_and_si128`). -/
def vand (a b : V128) : V128 := ⟨wand a.lo b.lo, wand a.hi b.hi⟩

/-- Lanewise 64-bit addition (`vaddq_u64` / `_mm_add_epi64`). -/
def vadd (a b : V128) : V128 := ⟨wadd a.lo b.lo, wadd a.hi b.hi⟩

/-- Lanewise 64-bit subtraction (`vsubq_u64` / `_mm_sub_epi64`). -/
def vsub (a b : V128) : V128 := ⟨wsub a.lo b.lo, wsub a.hi b.hi⟩

/-- Generic lanewise rotate left (`RotateLeft64<R>`, shift/shift/or). -/
def vrotl (r : Nat) (v : V128) : V128 := ⟨rotl r v.lo, rotl r v.hi⟩

/-- Generic lanewise rotate right (`RotateRight64<R>`, shift/shift/or). -/
def vrotr (r : Nat) (v : V128) : V128 := ⟨rotr r v.lo, rotr r v.hi⟩

/-- `UnpackHigh64(a, b)` / `_mm_unpackhi_epi64(a, b)`: result lanes are
the high lanes of `a` and `b`. -/
def UnpackHigh64 (a b : V128) : V128 := ⟨a.hi, b.hi⟩

/-- `UnpackLow64(a, b)` / `_mm_unpacklo_epi64(a, b)`: result lanes are
the low lanes of `a` and `b`. -/
def UnpackLow64 (a b : V128) : V128 := ⟨a.lo, b.lo⟩

/-- Broadcast one 64-bit word into both lanes (`vld1q_dup_u64`,
`_mm_loaddup_pd`, `VecSplatWord64`). -/
def dup64 (k : Nat) : V128 := ⟨k, k⟩

/-- Aligned 16-byte load of two adjacent 64-bit words
(`_mm_load_si128`, `VecLoadAligned`): used for pre-splatted round keys. -/
def load128 (subkeys : Nat → Nat) (j : Nat) : V128 := ⟨subkeys j, subkeys (j + 1)⟩

/-- Both lanes are in range for a 64-bit register. -/
def Bounded (v : V128) : Prop := v.lo < two64 ∧ v.hi < two64

instance (v : V128) : Decidable (Bounded v) := by unfold Bounded; infer_instance

/-- Both halves of a transposed `(Xv, Yv)` kernel state are in range. -/
def BoundedSt (s : V128 × V128) : Prop := Bounded s.1 ∧ Bounded s.2

instance (s : V128 × V128) : Decidable (BoundedSt s) := by unfold BoundedSt; infer_instance

theorem vxor_bounded (a b : V128) : Bounded (vxor a b) := ⟨wxor_lt _ _, wxor_lt _ _⟩

/-- Kernel-entry transpose: `Xv = UnpackHigh64(block0, block1)`,
`Yv = UnpackLow64(block0, block1)`. -/
def transposePair (b0 b1 : V128) : V128 × V128 := (UnpackHigh64 b0 b1, UnpackLow64 b0 b1)

/-- Kernel-exit detranspose: `block0 = UnpackLow64(Yv, Xv)`,
`block1 = UnpackHigh64(Yv, Xv)`. -/
def detransposePair (s : V128 × V128) : V128 × V128 :=
  (UnpackLow64 s.2 s.1, UnpackHigh64 s.2 s.1)

theorem transpose_detranspose (s : V128 × V128) :
    transposePair (detransposePair s).1 (detransposePair s).2 = s := rfl

theorem transposePair_bounded {b0 b1 : V128} (h0 : Bounded b0) (h1 : Bounded b1) :
    BoundedSt (transposePair b0 b1) := ⟨⟨h0.2, h1.2⟩, ⟨h0.1, h1.1⟩⟩

/-! ### Loop trip counts

`rounds` is an `unsigned int` (< 2^32).  The SPECK decryption loop is
`for (int i = (int)(rounds-1); i >= 0; --i)`: the start index is the
32-bit wrap of `rounds - 1` reinterpreted as a signed `int`.  The SIMON
encryption loop is `for (size_t i = 0; i < (size_t)(rounds & ~1)-1; i += 2)`:
the bound is computed in `size_t` arithmetic and wraps around for
`rounds < 2`.  The SIMON decryption loop is
`for (int i = (int)(rounds-2); i >= 0; i -= 2)`. -/

/-- Trip count of `for (int i = (int)(rounds-1); i >= 0; --i)`. -/
def speckDecIterCount (rounds : Nat) : Nat :=
  let i0 := (rounds + 2 ^ 32 - 1) % 2 ^ 32
  if i0 < 2 ^ 31 then i0 + 1 else 0

/-- The `size_t` value of `(size_t)(rounds & ~1) - 1`, where `rounds & ~1`
is computed in 32-bit `unsigned int` arithmetic. -/
def simonLoopBound (rounds : Nat) : Nat :=
  ((rounds &&& 0xFFFFFFFE) + (2 ^ 64 - 1)) % 2 ^ 64

/-- Trip count of `for (size_t i = 0; i < simonLoopBound rounds; i += 2)`. -/
def simonEncIterCount (rounds : Nat) : Nat := (simonLoopBound rounds + 1) / 2

/-- Trip count of `for (int i = (int)(rounds-2); i >= 0; i -= 2)`. -/
def simonDecIterCount (rounds : Nat) : Nat :=
  let i0 := (rounds + 2 ^ 32 - 2) % 2 ^ 32
  if i0 < 2 ^ 31 then i0 / 2 + 1 else 0

theorem speckDecIterCount_eq {rounds : Nat} (h : rounds ≤ 2 ^ 31) :
    speckDecIterCount rounds = rounds := by
  unfold speckDecIterCount
  rcases Nat.eq_zero_or_pos rounds with h0 | h0
  · subst h0
    decide
  · have e : (rounds + 2 ^ 32 - 1) % 2 ^ 32 = rounds - 1 := by omega
    simp only [e]
    rw [if_pos (by omega)]
    omega

/-! ### SPECK-128 kernels (`speck128_simd.cpp`)

The round body is translated assignment by assignment from
`SPECK128_Enc_Block` / `SPECK128_Dec_Block`. -/

/-- One SPECK-128 encryption round on the transposed state `(x1, y1)`:
`x1 = RotateRight64<8>(x1); x1 += y1; x1 ^= rk; y1 = RotateLeft64<3>(y1); y1 ^= x1`. -/
def speckEncRound (rk : V128) (s : V128 × V128) : V128 × V128 :=
  let x1 := vrotr 8 s.1
  let x1 := vadd x1 s.2
  let x1 := vxor x1 rk
  let y1 := vrotl 3 s.2
  let y1 := vxor y1 x1
  (x1, y1)

/-- One SPECK-128 decryption round on the transposed state `(x1, y1)`:
`y1 ^= x1; y1 = RotateRight64<3>(y1); x1 ^= rk; x1 -= y1; x1 = RotateLeft64<8>(x1)`. -/
def speckDecRound (rk : V128) (s : V128 × V128) : V128 × V128 :=
  let y1 := vxor s.2 s.1
  let y1 := vrotr 3 y1
  let x1 := vxor s.1 rk
  let x1 := vsub x1 y1
  let x1 := vrotl 8 x1
  (x1, y1)

/-- The SPECK encryption loop: round keys are consumed at indices
`0, 1, ..., n-1` in ascending order. -/
def speckEncLoop (rks : Nat → V128) : Nat → V128 × V128 → V128 × V128
  | 0, s => s
  | n + 1, s => speckEncRound (rks n) (speckEncLoop rks n s)

/-- The SPECK decryption loop: round keys are consumed at indices
`n-1, n-2, ..., 0` in descending order. -/
def speckDecLoop (rks : Nat → V128) : Nat → V128 × V128 → V128 × V128
  | 0, s => s
  | n + 1, s => speckDecLoop rks n (speckDecRound (rks n) s)

/-- `SPECK128_Enc_Block` on the SSE backend: round keys are pre-splatted
and loaded with `_mm_load_si128(subkeys + i*2)`. -/
def SPECK128_Enc_Block_SSE (subkeys : Nat → Nat) (rounds : Nat) (b0 b1 : V128) :
    V128 × V128 :=
  detransposePair (speckEncLoop (fun i => load128 subkeys (i * 2)) rounds
    (transposePair b0 b1))

/-- `SPECK128_Enc_Block` on the NEON backend: round keys are scalar and
broadcast with `vld1q_dup_u64(subkeys + i)`. -/
def SPECK128_Enc_Block_NEON (subkeys : Nat → Nat) (rounds : Nat) (b0 b1 : V128) :
    V128 × V128 :=
  detransposePair (speckEncLoop (fun i => dup64 (subkeys i)) rounds
    (transposePair b0 b1))

/-- `SPECK128_Dec_Block` on the SSE backend: round keys are scalar and
broadcast with `_mm_loaddup_pd(subkeys + i)`. -/
def SPECK128_Dec_Block_SSE (subkeys : Nat → Nat) (rounds : Nat) (b0 b1 : V128) :
    V128 × V128 :=
  detransposePair (speckDecLoop (fun i => dup64 (subkeys i)) (speckDecIterCount rounds)
    (transposePair b0 b1))

/-- `SPECK128_Dec_Block` on the NEON backend: round keys are scalar and
broadcast with `vld1q_dup_u64(subkeys + i)`. -/
def SPECK128_Dec_Block_NEON (subkeys : Nat → Nat) (rounds : Nat) (b0 b1 : V128) :
    V128 × V128 :=
  detransposePair (speckDecLoop (fun i => dup64 (subkeys i)) (speckDecIterCount rounds)
    (transposePair b0 b1))

theorem speckEncRound_bounded (rk : V128) (s : V128 × V128) :
    BoundedSt (speckEncRound rk s) :=
  ⟨vxor_bounded _ _, vxor_bounded _ _⟩

theorem speckEncLoop_bounded (rks : Nat → V128) :
    ∀ n {s : V128 × V128}, BoundedSt s → BoundedSt (speckEncLoop rks n s)
  | 0, _, hs => hs
  | n + 1, s, _ => speckEncRound_bounded (rks n) (speckEncLoop rks n s)

/-- One SPECK decryption round undoes one encryption round with the
same splatted key. -/
theorem speckDecRound_encRound {s : V128 × V128} (rk : V128) (hs : BoundedSt s) :
    speckDecRound rk (speckEncRound rk s) = s := by
  obtain ⟨⟨xl, xh⟩, ⟨yl, yh⟩⟩ := s
  obtain ⟨⟨hxl, hxh⟩, ⟨hyl, hyh⟩⟩ := hs
  simp only [speckEncRound, speckDecRound, vxor, vadd, vsub, vrotl, vrotr]
  have lane : ∀ x y k : Nat, x < two64 → y < two64 →
      rotr 3 (wxor (wxor (rotl 3 y) (wxor (wadd (rotr 8 x) y) k)) (wxor (wadd (rotr 8 x) y) k)) = y
      ∧ rotl 8 (wsub (wxor (wxor (wadd (rotr 8 x) y) k) k)
          (rotr 3 (wxor (wxor (rotl 3 y) (wxor (wadd (rotr 8 x) y) k)) (wxor (wadd (rotr 8 x) y) k)))) = x := by
    intro x y k hx hy
    have hy1 : rotr 3 (wxor (wxor (rotl 3 y) (wxor (wadd (rotr 8 x) y) k)) (wxor (wadd (rotr 8 x) y) k)) = y := by
      rw [wxor_cancel (rotl_lt 3 y) _, rotr_rotl (by omega) hy]
    refine ⟨hy1, ?_⟩
    rw [hy1, wxor_cancel (wadd_lt _ _) k, wsub_wadd (rotr_lt 8 x) y,
      rotl_rotr (by omega) hx]
  have h1 := lane xl yl rk.lo hxl hyl
  have h2 := lane xh yh rk.hi hxh hyh
  simp only [V128.mk.injEq, Prod.mk.injEq]
  exact ⟨⟨h1.2, h2.2⟩, h1.1, h2.1⟩

/-- The SPECK decryption loop undoes the encryption loop. -/
theorem speckLoop_roundTrip (rks : Nat → V128) :
    ∀ n {s : V128 × V128}, BoundedSt s →
      speckDecLoop rks n (speckEncLoop rks n s) = s
  | 0, _, _ => rfl
  | n + 1, s, hs => by
    show speckDecLoop rks n
      (speckDecRound (rks n) (speckEncRound (rks n) (speckEncLoop rks n s))) = s
    rw [speckDecRound_encRound (rks n) (speckEncLoop_bounded rks n hs)]
    exact speckLoop_roundTrip rks n hs

theorem speckEncLoop_congr {rks rks' : Nat → V128} :
    ∀ n, (∀ i, i < n → rks i = rks' i) → ∀ s, speckEncLoop rks n s = speckEncLoop rks' n s
  | 0, _, _ => rfl
  | n + 1, h, s => by
    show speckEncRound (rks n) (speckEncLoop rks n s)
      = speckEncRound (rks' n) (speckEncLoop rks' n s)
    rw [h n (by omega), speckEncLoop_congr n (fun i hi => h i (by omega)) s]

theorem speckDecLoop_congr {rks rks' : Nat → V128} :
    ∀ n, (∀ i, i < n → rks i = rks' i) → ∀ s, speckDecLoop rks n s = speckDecLoop rks' n s
  | 0, _, _ => rfl
  | n + 1, h, s => by
    show speckDecLoop rks n (speckDecRound (rks n) s)
      = speckDecLoop rks' n (speckDecRound (rks' n) s)
    rw [h n (by omega), speckDecLoop_congr n (fun i hi => h i (by omega))]

/-! ### SIMON-128 kernels (`simon_simd.cpp`) -/

/-- `SIMON128_f(v) = RotateLeft64<2>(v) ^ (RotateLeft64<1>(v) & RotateLeft64<8>(v))`. -/
def SIMON128_f (v : V128) : V128 :=
  vxor (vrotl 2 v) (vand (vrotl 1 v) (vrotl 8 v))

/-- One paired-loop iteration of the SIMON encryption loop, consuming
round keys `rk1 = k[i]` and `rk2 = k[i+1]`:
`y1 = (y1 ^ f(x1)) ^ rk1; x1 = (x1 ^ f(y1)) ^ rk2`. -/
def simonEncPair (rk1 rk2 : V128) (s : V128 × V128) : V128 × V128 :=
  let y1 := vxor (vxor s.2 (SIMON128_f s.1)) rk1
  let x1 := vxor (vxor s.1 (SIMON128_f y1)) rk2
  (x1, y1)

/-- One paired-loop iteration of the SIMON decryption loop, consuming
round keys `rk1 = k[i+1]` and `rk2 = k[i]`:
`x1 = (x1 ^ f(y1)) ^ rk1; y1 = (y1 ^ f(x1)) ^ rk2`. -/
def simonDecPair (rk1 rk2 : V128) (s : V128 × V128) : V128 × V128 :=
  let x1 := vxor (vxor s.1 (SIMON128_f s.2)) rk1
  let y1 := vxor (vxor s.2 (SIMON128_f x1)) rk2
  (x1, y1)

/-- The SIMON encryption paired loop: iteration `j` is the source loop
iteration with `i = 2*j`. -/
def simonEncPairLoop (rks : Nat → V128) : Nat → V128 × V128 → V128 × V128
  | 0, s => s
  | n + 1, s => simonEncPair (rks (2 * n)) (rks (2 * n + 1)) (simonEncPairLoop rks n s)

/-- The SIMON decryption paired loop, iterating `i` from `2*(n-1)` down
to `0` in steps of `-2`. -/
def simonDecPairLoop (rks : Nat → V128) : Nat → V128 × V128 → V128 × V128
  | 0, s => s
  | n + 1, s => simonDecPairLoop rks n (simonDecPair (rks (2 * n + 1)) (rks (2 * n)) s)

/-- The odd-rounds encryption tail: one single-round update with the
last key followed by `std::swap(x1, y1)`. -/
def simonEncTail (rk : V128) (s : V128 × V128) : V128 × V128 :=
  let y1 := vxor (vxor s.2 (SIMON128_f s.1)) rk
  (y1, s.1)

/-- The odd-rounds decryption head: `std::swap(x1, y1)` followed by
`y1 = (y1 ^ rk) ^ f(x1)` with the last key. -/
def simonDecTail (rk : V128) (s : V128 × V128) : V128 × V128 :=
  (s.2, vxor (vxor s.1 rk) (SIMON128_f s.2))

/-- `SIMON128_Enc_Block` on the SSE backend (pre-splatted round keys,
`_mm_load_si128(subkeys + i*2)`). -/
def SIMON128_Enc_Block_SSE (subkeys : Nat → Nat) (rounds : Nat) (b0 b1 : V128) :
    V128 × V128 :=
  let rks := fun i => load128 subkeys (i * 2)
  let s := transposePair b0 b1
  let s := simonEncPairLoop rks (simonEncIterCount rounds) s
  let s := if rounds % 2 = 1 then simonEncTail (rks (rounds - 1)) s else s
  detransposePair s

/-- `SIMON128_Enc_Block` on the NEON backend (scalar round keys,
`vld1q_dup_u64(subkeys + i)`). -/
def SIMON128_Enc_Block_NEON (subkeys : Nat → Nat) (rounds : Nat) (b0 b1 : V128) :
    V128 × V128 :=
  let rks := fun i => dup64 (subkeys i)
  let s := transposePair b0 b1
  let s := simonEncPairLoop rks (simonEncIterCount rounds) s
  let s := if rounds % 2 = 1 then simonEncTail (rks (rounds - 1)) s else s
  detransposePair s

/-- `SIMON128_Dec_Block` on the SSE backend (scalar round keys,
`_mm_loaddup_pd(subkeys + i)`); on odd `rounds` the kernel first swaps,
runs the single tail round with `k[rounds-1]`, and decrements `rounds`. -/
def SIMON128_Dec_Block_SSE (subkeys : Nat → Nat) (rounds : Nat) (b0 b1 : V128) :
    V128 × V128 :=
  let rks := fun i => dup64 (subkeys i)
  let s := transposePair b0 b1
  let sr := if rounds % 2 = 1 then (simonDecTail (rks (rounds - 1)) s, rounds - 1)
            else (s, rounds)
  detransposePair (simonDecPairLoop rks (simonDecIterCount sr.2) sr.1)

/-- `SIMON128_Dec_Block` on the NEON backend (scalar round keys,
`vld1q_dup_u64(subkeys + i)`). -/
def SIMON128_Dec_Block_NEON (subkeys : Nat → Nat) (rounds : Nat) (b0 b1 : V128) :
    V128 × V128 :=
  let rks := fun i => dup64 (subkeys i)
  let s := transposePair b0 b1
  let sr := if rounds % 2 = 1 then (simonDecTail (rks (rounds - 1)) s, rounds - 1)
            else (s, rounds)
  detransposePair (simonDecPairLoop rks (simonDecIterCount sr.2) sr.1)

theorem simonEncPair_bounded (rk1 rk2 : V128) (s : V128 × V128) :
    BoundedSt (simonEncPair rk1 rk2 s) :=
  ⟨vxor_bounded _ _, vxor_bounded _ _⟩

theorem simonEncPairLoop_bounded (rks : Nat → V128) :
    ∀ n {s : V128 × V128}, BoundedSt s → BoundedSt (simonEncPairLoop rks n s)
  | 0, _, hs => hs
  | n + 1, s, _ => simonEncPair_bounded _ _ (simonEncPairLoop rks n s)

/-- One decryption pair undoes one encryption pair when the two round
keys are presented in swapped order. -/
theorem simonDecPair_encPair {s : V128 × V128} (rka rkb : V128) (hs : BoundedSt s) :
    simonDecPair rkb rka (simonEncPair rka rkb s) = s := by
  obtain ⟨⟨xl, xh⟩, ⟨yl, yh⟩⟩ := s
  obtain ⟨⟨hxl, hxh⟩, ⟨hyl, hyh⟩⟩ := hs
  simp only [simonEncPair, simonDecPair]
  have hx : vxor (vxor (vxor (vxor ⟨xl, xh⟩ (SIMON128_f (vxor (vxor ⟨yl, yh⟩ (SIMON128_f ⟨xl, xh⟩)) rka))) rkb)
      (SIMON128_f (vxor (vxor ⟨yl, yh⟩ (SIMON128_f ⟨xl, xh⟩)) rka))) rkb = ⟨xl, xh⟩ := by
    simp only [vxor]
    exact congrArg₂ V128.mk (wxor_shuffle_cancel hxl _ _) (wxor_shuffle_cancel hxh _ _)
  rw [hx]
  simp only [vxor]
  exact Prod.ext rfl
    (congrArg₂ V128.mk (wxor_shuffle_cancel hyl _ _) (wxor_shuffle_cancel hyh _ _))

/-- The SIMON decryption paired loop undoes the encryption paired loop. -/
theorem simonPairLoop_roundTrip (rks : Nat → V128) :
    ∀ n {s : V128 × V128}, BoundedSt s →
      simonDecPairLoop rks n (simonEncPairLoop rks n s) = s
  | 0, _, _ => rfl
  | n + 1, s, hs => by
    show simonDecPairLoop rks n
      (simonDecPair (rks (2 * n + 1)) (rks (2 * n))
        (simonEncPair (rks (2 * n)) (rks (2 * n + 1)) (simonEncPairLoop rks n s))) = s
    rw [simonDecPair_encPair (rks (2 * n)) (rks (2 * n + 1))
      (simonEncPairLoop_bounded rks n hs)]
    exact simonPairLoop_roundTrip rks n hs

/-- The decryption head undoes the encryption tail for the same key. -/
theorem simonDecTail_encTail {s : V128 × V128} (rk : V128) (hs : BoundedSt s) :
    simonDecTail rk (simonEncTail rk s) = s := by
  obtain ⟨⟨xl, xh⟩, ⟨yl, yh⟩⟩ := s
  obtain ⟨⟨hxl, hxh⟩, ⟨hyl, hyh⟩⟩ := hs
  simp only [simonEncTail, simonDecTail, vxor]
  refine Prod.ext rfl (congrArg₂ V128.mk ?_ ?_)
  · rw [wxor_cancel (wxor_lt _ _), wxor_cancel hyl]
  · rw [wxor_cancel (wxor_lt _ _), wxor_cancel hyh]

theorem simonEncTail_bounded (rk : V128) {s : V128 × V128} (hs : BoundedSt s) :
    BoundedSt (simonEncTail rk s) := ⟨vxor_bounded _ _, hs.1⟩

theorem simonEncPairLoop_congr {rks rks' : Nat → V128} :
    ∀ n, (∀ i, i < 2 * n → rks i = rks' i) → ∀ s,
      simonEncPairLoop rks n s = simonEncPairLoop rks' n s
  | 0, _, _ => rfl
  | n + 1, h, s => by
    show simonEncPair (rks (2 * n)) (rks (2 * n + 1)) (simonEncPairLoop rks n s)
      = simonEncPair (rks' (2 * n)) (rks' (2 * n + 1)) (simonEncPairLoop rks' n s)
    rw [h (2 * n) (by omega), h (2 * n + 1) (by omega),
      simonEncPairLoop_congr n (fun i hi => h i (by omega)) s]

theorem simonDecPairLoop_congr {rks rks' : Nat → V128} :
    ∀ n, (∀ i, i < 2 * n → rks i = rks' i) → ∀ s,
      simonDecPairLoop rks n s = simonDecPairLoop rks' n s
  | 0, _, _ => rfl
  | n + 1, h, s => by
    show simonDecPairLoop rks n (simonDecPair (rks (2 * n + 1)) (rks (2 * n)) s)
      = simonDecPairLoop rks' n (simonDecPair (rks' (2 * n + 1)) (rks' (2 * n)) s)
    rw [h (2 * n) (by omega), h (2 * n + 1) (by omega),
      simonDecPairLoop_congr n (fun i hi => h i (by omega))]

/-- In 32-bit `unsigned int` arithmetic, `rounds & ~1` clears the low bit. -/
theorem and_mask_fffffffe {r : Nat} (h : r < 2 ^ 32) : r &&& 0xFFFFFFFE = 2 * (r / 2) := by
  have h2 : 2 * (r / 2) = (r >>> 1) <<< 1 := by
    rw [Nat.shiftLeft_eq, Nat.shiftRight_eq_div_pow]
    omega
  apply Nat.eq_of_testBit_eq
  intro i
  rw [Nat.testBit_and, h2, Nat.testBit_shiftLeft, Nat.testBit_shiftRight]
  rcases Nat.eq_zero_or_pos i with h0 | h0
  · subst h0
    rw [show Nat.testBit 0xFFFFFFFE 0 = false from by decide]
    simp
  · rw [show 1 + (i - 1) = i from by omega]
    by_cases h32 : i < 32
    · have hm : Nat.testBit 0xFFFFFFFE i = true := by
        interval_cases i <;> decide
      rw [hm]
      simp [Nat.one_le_iff_ne_zero.mpr (by omega : i ≠ 0)]
    · have hf : Nat.testBit r i = false :=
        Nat.testBit_lt_two_pow
          (Nat.lt_of_lt_of_le h (Nat.pow_le_pow_right (by omega) (by omega)))
      rw [hf]
      simp

theorem simonEncIterCount_eq {r : Nat} (h2 : 2 ≤ r) (h32 : r < 2 ^ 32) :
    simonEncIterCount r = r / 2 := by
  unfold simonEncIterCount simonLoopBound
  rw [and_mask_fffffffe h32]
  have e : (2 * (r / 2) + (2 ^ 64 - 1)) % 2 ^ 64 = 2 * (r / 2) - 1 := by omega
  rw [e]
  omega

theorem simonEncIterCount_wrap : simonEncIterCount 0 = 2 ^ 63 ∧ simonEncIterCount 1 = 2 ^ 63 := by
  constructor <;> decide

theorem simonDecIterCount_eq {r : Nat} (h2 : 2 ≤ r) (h31 : r < 2 ^ 31) (he : r % 2 = 0) :
    simonDecIterCount r = r / 2 := by
  unfold simonDecIterCount
  have e : (r + 2 ^ 32 - 2) % 2 ^ 32 = r - 2 := by omega
  simp only [e]
  rw [if_pos (by omega)]
  omega

theorem simonDecIterCount_zero : simonDecIterCount 0 = 0 := by decide

theorem detranspose_transpose (b0 b1 : V128) :
    detransposePair (transposePair b0 b1) = (b0, b1) := rfl

/-- Even-rounds core: the decryption paired loop undoes the encryption
paired loop when both trip counts are computed from the same `rounds`. -/
theorem simon_core_even (rks : Nat → V128) {r : Nat} (he : r % 2 = 0) (h2 : 2 ≤ r)
    (h31 : r < 2 ^ 31) {s : V128 × V128} (hs : BoundedSt s) :
    simonDecPairLoop rks (simonDecIterCount r)
      (simonEncPairLoop rks (simonEncIterCount r) s) = s := by
  rw [simonEncIterCount_eq h2 (by omega), simonDecIterCount_eq h2 h31 he]
  exact simonPairLoop_roundTrip rks _ hs

/-- Odd-rounds core: swap-and-single-round head undoes the
single-round-and-swap tail, then the paired loops cancel. -/
theorem simon_core_odd (rks : Nat → V128) {r : Nat} (ho : r % 2 = 1) (h3 : 3 ≤ r)
    (h31 : r < 2 ^ 31) {s : V128 × V128} (hs : BoundedSt s) :
    simonDecPairLoop rks (simonDecIterCount (r - 1))
      (simonDecTail (rks (r - 1))
        (simonEncTail (rks (r - 1)) (simonEncPairLoop rks (simonEncIterCount r) s))) = s := by
  rw [simonDecTail_encTail _ (simonEncPairLoop_bounded rks _ hs),
    simonEncIterCount_eq (by omega) (by omega),
    @simonDecIterCount_eq (r - 1) (by omega) (by omega) (by omega),
    show (r - 1) / 2 = r / 2 from by omega]
  exact simonPairLoop_roundTrip rks _ hs

/-- NEON SIMON-128 kernel round trip (both directions read the same
scalar key schedule). -/
theorem SIMON128_NEON_roundTrip (sub : Nat → Nat) {r : Nat} (h2 : 2 ≤ r) (h31 : r < 2 ^ 31)
    {b0 b1 : V128} (hb0 : Bounded b0) (hb1 : Bounded b1) :
    SIMON128_Dec_Block_NEON sub r (SIMON128_Enc_Block_NEON sub r b0 b1).1
      (SIMON128_Enc_Block_NEON sub r b0 b1).2 = (b0, b1) := by
  simp only [SIMON128_Dec_Block_NEON, SIMON128_Enc_Block_NEON]
  rw [transpose_detranspose]
  by_cases ho : r % 2 = 1
  · simp only [if_pos ho]
    rw [simon_core_odd _ ho (by omega) h31 (transposePair_bounded hb0 hb1)]
    exact detranspose_transpose b0 b1
  · simp only [if_neg ho]
    rw [simon_core_even _ (by omega) h2 h31 (transposePair_bounded hb0 hb1)]
    exact detranspose_transpose b0 b1

/-- SSE SIMON-128 kernel round trip: encryption reads the pre-splatted
schedule `esub`, decryption the scalar schedule `dsub`, both images of
the same logical schedule `K`. -/
theorem SIMON128_SSE_roundTrip {K esub dsub : Nat → Nat} {r : Nat}
    (hk1 : ∀ i, i < r → esub (i * 2) = K i) (hk2 : ∀ i, i < r → esub (i * 2 + 1) = K i)
    (hd : ∀ i, i < r → dsub i = K i) (h2 : 2 ≤ r) (h31 : r < 2 ^ 31)
    {b0 b1 : V128} (hb0 : Bounded b0) (hb1 : Bounded b1) :
    SIMON128_Dec_Block_SSE dsub r (SIMON128_Enc_Block_SSE esub r b0 b1).1
      (SIMON128_Enc_Block_SSE esub r b0 b1).2 = (b0, b1) := by
  have hkey : ∀ i, i < r → load128 esub (i * 2) = dup64 (dsub i) := by
    intro i hi
    show (⟨esub (i * 2), esub (i * 2 + 1)⟩ : V128) = ⟨dsub i, dsub i⟩
    rw [hk1 i hi, hk2 i hi, hd i hi]
  simp only [SIMON128_Dec_Block_SSE, SIMON128_Enc_Block_SSE]
  rw [transpose_detranspose]
  have hiter : simonEncIterCount r = r / 2 := simonEncIterCount_eq h2 (by omega)
  have hloop : simonEncPairLoop (fun i => load128 esub (i * 2)) (simonEncIterCount r)
      (transposePair b0 b1)
      = simonEncPairLoop (fun i => dup64 (dsub i)) (simonEncIterCount r)
        (transposePair b0 b1) := by
    apply simonEncPairLoop_congr
    intro i hi
    rw [hiter] at hi
    exact hkey i (by omega)
  rw [hloop]
  by_cases ho : r % 2 = 1
  · simp only [if_pos ho]
    rw [hkey (r - 1) (by omega),
      simon_core_odd _ ho (by omega) h31 (transposePair_bounded hb0 hb1)]
    exact detranspose_transpose b0 b1
  · simp only [if_neg ho]
    rw [simon_core_even _ (by omega) h2 h31 (transposePair_bounded hb0 hb1)]
    exact detranspose_transpose b0 b1

/-- SSE SPECK-128 kernel round trip: encryption reads the pre-splatted
schedule `esub`, decryption the scalar schedule `dsub`. -/
theorem SPECK128_SSE_roundTrip {K esub dsub : Nat → Nat} {r : Nat}
    (hk1 : ∀ i, i < r → esub (i * 2) = K i) (hk2 : ∀ i, i < r → esub (i * 2 + 1) = K i)
    (hd : ∀ i, i < r → dsub i = K i) (h31 : r ≤ 2 ^ 31)
    {b0 b1 : V128} (hb0 : Bounded b0) (hb1 : Bounded b1) :
    SPECK128_Dec_Block_SSE dsub r (SPECK128_Enc_Block_SSE esub r b0 b1).1
      (SPECK128_Enc_Block_SSE esub r b0 b1).2 = (b0, b1) := by
  have hkey : ∀ i, i < r → load128 esub (i * 2) = dup64 (dsub i) := by
    intro i hi
    show (⟨esub (i * 2), esub (i * 2 + 1)⟩ : V128) = ⟨dsub i, dsub i⟩
    rw [hk1 i hi, hk2 i hi, hd i hi]
  simp only [SPECK128_Dec_Block_SSE, SPECK128_Enc_Block_SSE]
  rw [transpose_detranspose, speckDecIterCount_eq h31,
    speckEncLoop_congr r hkey (transposePair b0 b1),
    speckLoop_roundTrip _ r (transposePair_bounded hb0 hb1)]
  exact detranspose_transpose b0 b1

/-! ### 6-block kernels

Three independent transposed block pairs processed in lockstep.  The
round bodies follow the interleaved instruction order of the sources. -/

/-- Three transposed `(Xv, Yv)` states. -/
abbrev St3 := (V128 × V128) × (V128 × V128) × (V128 × V128)

/-- One round of `SPECK128_Enc_6_Blocks`. -/
def speckEncRound6 (rk : V128) (t : St3) : St3 :=
  let x1 := vrotr 8 t.1.1
  let x2 := vrotr 8 t.2.1.1
  let x3 := vrotr 8 t.2.2.1
  let x1 := vadd x1 t.1.2
  let x2 := vadd x2 t.2.1.2
  let x3 := vadd x3 t.2.2.2
  let x1 := vxor x1 rk
  let x2 := vxor x2 rk
  let x3 := vxor x3 rk
  let y1 := vrotl 3 t.1.2
  let y2 := vrotl 3 t.2.1.2
  let y3 := vrotl 3 t.2.2.2
  let y1 := vxor y1 x1
  let y2 := vxor y2 x2
  let y3 := vxor y3 x3
  ((x1, y1), (x2, y2), (x3, y3))

/-- One round of `SPECK128_Dec_6_Blocks`. -/
def speckDecRound6 (rk : V128) (t : St3) : St3 :=
  let y1 := vxor t.1.2 t.1.1
  let y2 := vxor t.2.1.2 t.2.1.1
  let y3 := vxor t.2.2.2 t.2.2.1
  let y1 := vrotr 3 y1
  let y2 := vrotr 3 y2
  let y3 := vrotr 3 y3
  let x1 := vxor t.1.1 rk
  let x2 := vxor t.2.1.1 rk
  let x3 := vxor t.2.2.1 rk
  let x1 := vsub x1 y1
  let x2 := vsub x2 y2
  let x3 := vsub x3 y3
  let x1 := vrotl 8 x1
  let x2 := vrotl 8 x2
  let x3 := vrotl 8 x3
  ((x1, y1), (x2, y2), (x3, y3))

def speckEncLoop6 (rks : Nat → V128) : Nat → St3 → St3
  | 0, t => t
  | n + 1, t => speckEncRound6 (rks n) (speckEncLoop6 rks n t)

def speckDecLoop6 (rks : Nat → V128) : Nat → St3 → St3
  | 0, t => t
  | n + 1, t => speckDecLoop6 rks n (speckDecRound6 (rks n) t)

/-- One paired-loop iteration of `SIMON128_Enc_6_Blocks`. -/
def simonEncPair6 (rk1 rk2 : V128) (t : St3) : St3 :=
  let y1 := vxor (vxor t.1.2 (SIMON128_f t.1.1)) rk1
  let y2 := vxor (vxor t.2.1.2 (SIMON128_f t.2.1.1)) rk1
  let y3 := vxor (vxor t.2.2.2 (SIMON128_f t.2.2.1)) rk1
  let x1 := vxor (vxor t.1.1 (SIMON128_f y1)) rk2
  let x2 := vxor (vxor t.2.1.1 (SIMON128_f y2)) rk2
  let x3 := vxor (vxor t.2.2.1 (SIMON128_f y3)) rk2
  ((x1, y1), (x2, y2), (x3, y3))

/-- One paired-loop iteration of `SIMON128_Dec_6_Blocks`. -/
def simonDecPair6 (rk1 rk2 : V128) (t : St3) : St3 :=
  let x1 := vxor (vxor t.1.1 (SIMON128_f t.1.2)) rk1
  let x2 := vxor (vxor t.2.1.1 (SIMON128_f t.2.1.2)) rk1
  let x3 := vxor (vxor t.2.2.1 (SIMON128_f t.2.2.2)) rk1
  let y1 := vxor (vxor t.1.2 (SIMON128_f x1)) rk2
  let y2 := vxor (vxor t.2.1.2 (SIMON128_f x2)) rk2
  let y3 := vxor (vxor t.2.2.2 (SIMON128_f x3)) rk2
  ((x1, y1), (x2, y2), (x3, y3))

def simonEncPairLoop6 (rks : Nat → V128) : Nat → St3 → St3
  | 0, t => t
  | n + 1, t => simonEncPair6 (rks (2 * n)) (rks (2 * n + 1)) (simonEncPairLoop6 rks n t)

def simonDecPairLoop6 (rks : Nat → V128) : Nat → St3 → St3
  | 0, t => t
  | n + 1, t => simonDecPairLoop6 rks n (simonDecPair6 (rks (2 * n + 1)) (rks (2 * n)) t)

/-- Odd-rounds tail of `SIMON128_Enc_6_Blocks`: one single-round update
with the last key and a swap, on each pair. -/
def simonEncTail6 (rk : V128) (t : St3) : St3 :=
  let y1 := vxor (vxor t.1.2 (SIMON128_f t.1.1)) rk
  let y2 := vxor (vxor t.2.1.2 (SIMON128_f t.2.1.1)) rk
  let y3 := vxor (vxor t.2.2.2 (SIMON128_f t.2.2.1)) rk
  ((y1, t.1.1), (y2, t.2.1.1), (y3, t.2.2.1))

/-- Odd-rounds head of `SIMON128_Dec_6_Blocks`: swap, then one
single-round update with the last key, on each pair. -/
def simonDecTail6 (rk : V128) (t : St3) : St3 :=
  ((t.1.2, vxor (vxor t.1.1 rk) (SIMON128_f t.1.2)),
   (t.2.1.2, vxor (vxor t.2.1.1 rk) (SIMON128_f t.2.1.2)),
   (t.2.2.2, vxor (vxor t.2.2.1 rk) (SIMON128_f t.2.2.2)))

/-- `SPECK128_Enc_6_Blocks` on the SSE backend. -/
def SPECK128_Enc_6_Blocks_SSE (subkeys : Nat → Nat) (rounds : Nat)
    (b0 b1 b2 b3 b4 b5 : V128) : V128 × V128 × V128 × V128 × V128 × V128 :=
  let rks := fun i => load128 subkeys (i * 2)
  let t := (transposePair b0 b1, transposePair b2 b3, transposePair b4 b5)
  let t := speckEncLoop6 rks rounds t
  let p1 := detransposePair t.1
  let p2 := detransposePair t.2.1
  let p3 := detransposePair t.2.2
  (p1.1, p1.2, p2.1, p2.2, p3.1, p3.2)

/-- `SPECK128_Dec_6_Blocks` on the SSE backend. -/
def SPECK128_Dec_6_Blocks_SSE (subkeys : Nat → Nat) (rounds : Nat)
    (b0 b1 b2 b3 b4 b5 : V128) : V128 × V128 × V128 × V128 × V128 × V128 :=
  let rks := fun i => dup64 (subkeys i)
  let t := (transposePair b0 b1, transposePair b2 b3, transposePair b4 b5)
  let t := speckDecLoop6 rks (speckDecIterCount rounds) t
  let p1 := detransposePair t.1
  let p2 := detransposePair t.2.1
  let p3 := detransposePair t.2.2
  (p1.1, p1.2, p2.1, p2.2, p3.1, p3.2)

/-- `SIMON128_Enc_6_Blocks` on the SSE backend. -/
def SIMON128_Enc_6_Blocks_SSE (subkeys : Nat → Nat) (rounds : Nat)
    (b0 b1 b2 b3 b4 b5 : V128) : V128 × V128 × V128 × V128 × V128 × V128 :=
  let rks := fun i => load128 subkeys (i * 2)
  let t := (transposePair b0 b1, transposePair b2 b3, transposePair b4 b5)
  let t := simonEncPairLoop6 rks (simonEncIterCount rounds) t
  let t := if rounds % 2 = 1 then simonEncTail6 (rks (rounds - 1)) t else t
  let p1 := detransposePair t.1
  let p2 := detransposePair t.2.1
  let p3 := detransposePair t.2.2
  (p1.1, p1.2, p2.1, p2.2, p3.1, p3.2)

/-- `SIMON128_Dec_6_Blocks` on the SSE backend. -/
def SIMON128_Dec_6_Blocks_SSE (subkeys : Nat → Nat) (rounds : Nat)
    (b0 b1 b2 b3 b4 b5 : V128) : V128 × V128 × V128 × V128 × V128 × V128 :=
  let rks := fun i => dup64 (subkeys i)
  let t := (transposePair b0 b1, transposePair b2 b3, transposePair b4 b5)
  let sr := if rounds % 2 = 1 then (simonDecTail6 (rks (rounds - 1)) t, rounds - 1)
            else (t, rounds)
  let t := simonDecPairLoop6 rks (simonDecIterCount sr.2) sr.1
  let p1 := detransposePair t.1
  let p2 := detransposePair t.2.1
  let p3 := detransposePair t.2.2
  (p1.1, p1.2, p2.1, p2.2, p3.1, p3.2)

theorem speckEncLoop6_eq (rks : Nat → V128) :
    ∀ n s1 s2 s3, speckEncLoop6 rks n (s1, s2, s3)
      = (speckEncLoop rks n s1, speckEncLoop rks n s2, speckEncLoop rks n s3)
  | 0, _, _, _ => rfl
  | n + 1, s1, s2, s3 => by
    show speckEncRound6 (rks n) (speckEncLoop6 rks n (s1, s2, s3)) = _
    rw [speckEncLoop6_eq rks n s1 s2 s3]
    rfl

theorem speckDecLoop6_eq (rks : Nat → V128) :
    ∀ n s1 s2 s3, speckDecLoop6 rks n (s1, s2, s3)
      = (speckDecLoop rks n s1, speckDecLoop rks n s2, speckDecLoop rks n s3)
  | 0, _, _, _ => rfl
  | n + 1, s1, s2, s3 => by
    show speckDecLoop6 rks n (speckDecRound6 (rks n) (s1, s2, s3)) = _
    rw [show speckDecRound6 (rks n) (s1, s2, s3)
      = (speckDecRound (rks n) s1, speckDecRound (rks n) s2, speckDecRound (rks n) s3)
      from rfl]
    exact speckDecLoop6_eq rks n _ _ _

theorem simonEncPairLoop6_eq (rks : Nat → V128) :
    ∀ n s1 s2 s3, simonEncPairLoop6 rks n (s1, s2, s3)
      = (simonEncPairLoop rks n s1, simonEncPairLoop rks n s2, simonEncPairLoop rks n s3)
  | 0, _, _, _ => rfl
  | n + 1, s1, s2, s3 => by
    show simonEncPair6 (rks (2 * n)) (rks (2 * n + 1)) (simonEncPairLoop6 rks n (s1, s2, s3)) = _
    rw [simonEncPairLoop6_eq rks n s1 s2 s3]
    rfl

theorem simonDecPairLoop6_eq (rks : Nat → V128) :
    ∀ n s1 s2 s3, simonDecPairLoop6 rks n (s1, s2, s3)
      = (simonDecPairLoop rks n s1, simonDecPairLoop rks n s2, simonDecPairLoop rks n s3)
  | 0, _, _, _ => rfl
  | n + 1, s1, s2, s3 => by
    show simonDecPairLoop6 rks n (simonDecPair6 (rks (2 * n + 1)) (rks (2 * n)) (s1, s2, s3)) = _
    rw [show simonDecPair6 (rks (2 * n + 1)) (rks (2 * n)) (s1, s2, s3)
      = (simonDecPair (rks (2 * n + 1)) (rks (2 * n)) s1,
         simonDecPair (rks (2 * n + 1)) (rks (2 * n)) s2,
         simonDecPair (rks (2 * n + 1)) (rks (2 * n)) s3) from rfl]
    exact simonDecPairLoop6_eq rks n _ _ _

/-! ### Byte-permute rotate specializations

`RotateLeft64<8>` / `RotateRight64<8>` are specialized to a single
byte shuffle: `_mm_shuffle_epi8` on SSE, `vqtbl1q_u8` on NEON.  The
16-byte view of a vector has byte `j` equal to bits `8j..8j+7` of the
low lane for `j < 8` and of the high lane for `j ≥ 8`. -/

/-- Byte `j` of a 64-bit lane. -/
def wbyte (a j : Nat) : Nat := a % two64 / 2 ^ (8 * j) % 256

/-- Byte `j` of the 16-byte view of a 128-bit vector. -/
def vgetByte (v : V128) (j : Nat) : Nat := if j < 8 then wbyte v.lo j else wbyte v.hi (j - 8)

/-- Rebuild a 128-bit vector from its 16 bytes. -/
def vfromBytes (f : Nat → Nat) : V128 :=
  ⟨f 0 + f 1 * 2 ^ 8 + f 2 * 2 ^ 16 + f 3 * 2 ^ 24 + f 4 * 2 ^ 32 + f 5 * 2 ^ 40
     + f 6 * 2 ^ 48 + f 7 * 2 ^ 56,
   f 8 + f 9 * 2 ^ 8 + f 10 * 2 ^ 16 + f 11 * 2 ^ 24 + f 12 * 2 ^ 32 + f 13 * 2 ^ 40
     + f 14 * 2 ^ 48 + f 15 * 2 ^ 56⟩

/-- `_mm_shuffle_epi8(val, mask)`: byte `j` of the result is byte
`mask[j] & 0x0F` of `val`, or `0` when bit 7 of `mask[j]` is set. -/
def pshufb (v : V128) (m : Nat → Nat) : V128 :=
  vfromBytes (fun j => if m j % 256 < 128 then vgetByte v (m j % 16) else 0)

/-- `vqtbl1q_u8(val, mask)`: byte `j` of the result is byte `mask[j]`
of `val`, or `0` when the index is out of range. -/
def vqtbl1q (v : V128) (m : Nat → Nat) : V128 :=
  vfromBytes (fun j => if m j % 256 < 16 then vgetByte v (m j % 256) else 0)

/-- The rotate-left-by-8 permute table
`{7,0,1,2, 3,4,5,6, 15,8,9,10, 11,12,13,14}` (byte index order). -/
def maskRotL8 : Nat → Nat
  | 0 => 7 | 1 => 0 | 2 => 1 | 3 => 2 | 4 => 3 | 5 => 4 | 6 => 5 | 7 => 6
  | 8 => 15 | 9 => 8 | 10 => 9 | 11 => 10 | 12 => 11 | 13 => 12 | 14 => 13 | 15 => 14
  | _ => 0

/-- The rotate-right-by-8 permute table
`{1,2,3,4, 5,6,7,0, 9,10,11,12, 13,14,15,8}` (byte index order). -/
def maskRotR8 : Nat → Nat
  | 0 => 1 | 1 => 2 | 2 => 3 | 3 => 4 | 4 => 5 | 5 => 6 | 6 => 7 | 7 => 0
  | 8 => 9 | 9 => 10 | 10 => 11 | 11 => 12 | 12 => 13 | 13 => 14 | 14 => 15 | 15 => 8
  | _ => 0

/-- The SSE `RotateLeft64<8>` specialization. -/
def RotateLeft64_8_SSE (v : V128) : V128 := pshufb v maskRotL8

/-- The SSE `RotateRight64<8>` specialization. -/
def RotateRight64_8_SSE (v : V128) : V128 := pshufb v maskRotR8

/-- The NEON `RotateLeft64<8>` specialization. -/
def RotateLeft64_8_NEON (v : V128) : V128 := vqtbl1q v maskRotL8

/-- The NEON `RotateRight64<8>` specialization. -/
def RotateRight64_8_NEON (v : V128) : V128 := vqtbl1q v maskRotR8

theorem rotl_mod (r a : Nat) : rotl r (a % two64) = rotl r a := by
  unfold rotl
  rw [Nat.mod_mod_of_dvd _ dvd_rfl]

theorem rotr_mod (r a : Nat) : rotr r (a % two64) = rotr r a := by
  unfold rotr
  rw [Nat.mod_mod_of_dvd _ dvd_rfl]

/-- Rotating a lane left by one byte position, expressed on bytes. -/
theorem rotl8_bytes (x : Nat) :
    wbyte x 7 + wbyte x 0 * 2 ^ 8 + wbyte x 1 * 2 ^ 16 + wbyte x 2 * 2 ^ 24
      + wbyte x 3 * 2 ^ 32 + wbyte x 4 * 2 ^ 40 + wbyte x 5 * 2 ^ 48 + wbyte x 6 * 2 ^ 56
      = rotl 8 x := by
  have hx : x % two64 < two64 := Nat.mod_lt _ two64_pos
  rw [← rotl_mod 8 x, rotl_char (by omega) hx]
  unfold wbyte
  set y := x % two64 with hy
  rw [two64_eq] at hx
  norm_num
  omega

/-- Rotating a lane right by one byte position, expressed on bytes. -/
theorem rotr8_bytes (x : Nat) :
    wbyte x 1 + wbyte x 2 * 2 ^ 8 + wbyte x 3 * 2 ^ 16 + wbyte x 4 * 2 ^ 24
      + wbyte x 5 * 2 ^ 32 + wbyte x 6 * 2 ^ 40 + wbyte x 7 * 2 ^ 48 + wbyte x 0 * 2 ^ 56
      = rotr 8 x := by
  have hx : x % two64 < two64 := Nat.mod_lt _ two64_pos
  rw [← rotr_mod 8 x, rotr_eq_rotl (by omega), rotl_char (by omega) hx]
  unfold wbyte
  set y := x % two64 with hy
  rw [two64_eq] at hx
  norm_num
  omega

theorem pshufb_maskL8 (lo hi : Nat) :
    pshufb ⟨lo, hi⟩ maskRotL8
      = ⟨wbyte lo 7 + wbyte lo 0 * 2 ^ 8 + wbyte lo 1 * 2 ^ 16 + wbyte lo 2 * 2 ^ 24
           + wbyte lo 3 * 2 ^ 32 + wbyte lo 4 * 2 ^ 40 + wbyte lo 5 * 2 ^ 48 + wbyte lo 6 * 2 ^ 56,
         wbyte hi 7 + wbyte hi 0 * 2 ^ 8 + wbyte hi 1 * 2 ^ 16 + wbyte hi 2 * 2 ^ 24
           + wbyte hi 3 * 2 ^ 32 + wbyte hi 4 * 2 ^ 40 + wbyte hi 5 * 2 ^ 48 + wbyte hi 6 * 2 ^ 56⟩ := rfl

theorem pshufb_maskR8 (lo hi : Nat) :
    pshufb ⟨lo, hi⟩ maskRotR8
      = ⟨wbyte lo 1 + wbyte lo 2 * 2 ^ 8 + wbyte lo 3 * 2 ^ 16 + wbyte lo 4 * 2 ^ 24
           + wbyte lo 5 * 2 ^ 32 + wbyte lo 6 * 2 ^ 40 + wbyte lo 7 * 2 ^ 48 + wbyte lo 0 * 2 ^ 56,
         wbyte hi 1 + wbyte hi 2 * 2 ^ 8 + wbyte hi 3 * 2 ^ 16 + wbyte hi 4 * 2 ^ 24
           + wbyte hi 5 * 2 ^ 32 + wbyte hi 6 * 2 ^ 40 + wbyte hi 7 * 2 ^ 48 + wbyte hi 0 * 2 ^ 56⟩ := rfl

theorem vqtbl_maskL8 (lo hi : Nat) :
    vqtbl1q ⟨lo, hi⟩ maskRotL8 = pshufb ⟨lo, hi⟩ maskRotL8 := rfl

theorem vqtbl_maskR8 (lo hi : Nat) :
    vqtbl1q ⟨lo, hi⟩ maskRotR8 = pshufb ⟨lo, hi⟩ maskRotR8 := rfl

/-! ### Spec-form round functions (§4.2 of the spec) -/

/-- The SPECK encryption round exactly as the spec writes it:
`x ← (rotr64<8>(x) + y) ⊕ k[i]`, then `y ← rotl64<3>(y) ⊕ x`. -/
def speckEncRound_spec (k x y : Nat) : Nat × Nat :=
  let x' := wxor (wadd (rotr 8 x) y) k
  (x', wxor (rotl 3 y) x')

/-- The SPECK decryption round exactly as the spec writes it:
`y ← rotr64<3>(y ⊕ x)`, then `x ← rotl64<8>((x ⊕ k[i]) − y)` with the
already-updated `y`. -/
def speckDecRound_spec (k x y : Nat) : Nat × Nat :=
  let y' := rotr 3 (wxor y x)
  (rotl 8 (wsub (wxor x k) y'), y')

/-! ### SPECK-128/128 key schedule -/

/-- Modelled from the spec: the round-key expansion is not part of the
source excerpt (§1 declares the key schedule an external collaborator,
and §3 only fixes its two storage layouts), so the SPECK-128/128
schedule is taken from the Simon/Speck reference that §3 and §8 of the
spec appeal to.  State `(l, k)` starts at the two key words and steps
by the SPECK round function keyed with the round counter:
`l ← (rotr64<8>(l) + k) ⊕ i`, `k ← rotl64<3>(k) ⊕ l`. -/
def speckKSPair (l0 k0 : Nat) : Nat → Nat × Nat
  | 0 => (l0, k0)
  | i + 1 =>
    let p := speckKSPair l0 k0 i
    let l := wxor (wadd (rotr 8 p.1) p.2) i
    (l, wxor (rotl 3 p.2) l)

/-- Round key `i` of SPECK-128/128 for the key words `(l0, k0)`. -/
def speckKS (l0 k0 i : Nat) : Nat := (speckKSPair l0 k0 i).2

/-! ### SIMON encryption trip counting -/

/-- Number of single-round state updates executed by the SIMON
encryption kernels: two per paired-loop iteration, plus the one tail
round when `rounds` is odd. -/
def simonEncUpdates (rounds : Nat) : Nat :=
  2 * simonEncIterCount rounds + rounds % 2

/-! ### Advanced block driver -/

/-- Modelled from the spec: the pre-kernel XOR step of §4.5
(`BT_XorInput` set and a secondary stream present). -/
def advPre (xorIn : Option (Nat → V128)) (xorInput : Bool) (inp : Nat → V128) (i : Nat) :
    V128 :=
  match xorIn with
  | some f => if xorInput then vxor (inp i) (f i) else inp i
  | none => inp i

/-- Modelled from the spec: the post-kernel XOR step of §4.5 (secondary
stream present and `BT_XorInput` clear). -/
def advPost (xorIn : Option (Nat → V128)) (xorInput : Bool) (i : Nat) (o : V128) : V128 :=
  match xorIn with
  | some f => if xorInput then o else vxor o (f i)
  | none => o

/-- Modelled from the spec: the block loop of
`AdvancedProcessBlocks128_6x2` (§4.5), which lives in `adv_simd.h` and
is not part of the source excerpt.  While `length ≥ 96` and parallel
processing is allowed, six blocks go through the 6-block kernel; while
`length ≥ 32`, two blocks go through the pair kernel; while
`length ≥ 16`, one block goes through the pair kernel with the second
slot duplicated and only the first output is kept; the remaining byte
count is returned.  Input is indexed by block number; the output is
the list of produced blocks. -/
def advLoop (K2 : V128 → V128 → V128 × V128)
    (K6 : V128 → V128 → V128 → V128 → V128 → V128 → V128 × V128 × V128 × V128 × V128 × V128)
    (parallel : Bool) (xorIn : Option (Nat → V128)) (xorInput : Bool)
    (inp : Nat → V128) (idx length : Nat) : List V128 × Nat :=
  if h6 : 96 ≤ length ∧ parallel = true then
    let o := K6 (advPre xorIn xorInput inp idx) (advPre xorIn xorInput inp (idx + 1))
      (advPre xorIn xorInput inp (idx + 2)) (advPre xorIn xorInput inp (idx + 3))
      (advPre xorIn xorInput inp (idx + 4)) (advPre xorIn xorInput inp (idx + 5))
    let rest := advLoop K2 K6 parallel xorIn xorInput inp (idx + 6) (length - 96)
    (advPost xorIn xorInput idx o.1 :: advPost xorIn xorInput (idx + 1) o.2.1
      :: advPost xorIn xorInput (idx + 2) o.2.2.1 :: advPost xorIn xorInput (idx + 3) o.2.2.2.1
      :: advPost xorIn xorInput (idx + 4) o.2.2.2.2.1
      :: advPost xorIn xorInput (idx + 5) o.2.2.2.2.2 :: rest.1, rest.2)
  else if hp : 32 ≤ length then
    let o := K2 (advPre xorIn xorInput inp idx) (advPre xorIn xorInput inp (idx + 1))
    let rest := advLoop K2 K6 parallel xorIn xorInput inp (idx + 2) (length - 32)
    (advPost xorIn xorInput idx o.1 :: advPost xorIn xorInput (idx + 1) o.2 :: rest.1, rest.2)
  else if hs : 16 ≤ length then
    let o := K2 (advPre xorIn xorInput inp idx) (advPre xorIn xorInput inp idx)
    let rest := advLoop K2 K6 parallel xorIn xorInput inp (idx + 1) (length - 16)
    (advPost xorIn xorInput idx o.1 :: rest.1, rest.2)
  else
    ([], length)
termination_by length
decreasing_by all_goals omega

/-- Modelled from the spec: the exported
`advanced_process_blocks` entry point (§4.5, §6) starting at block 0. -/
def AdvancedProcessBlocks128_6x2 (K2 : V128 → V128 → V128 × V128)
    (K6 : V128 → V128 → V128 → V128 → V128 → V128 → V128 × V128 × V128 × V128 × V128 × V128)
    (parallel : Bool) (xorIn : Option (Nat → V128)) (xorInput : Bool)
    (inp : Nat → V128) (length : Nat) : List V128 × Nat :=
  advLoop K2 K6 parallel xorIn xorInput inp 0 length

theorem advLoop_contract (K2 : V128 → V128 → V128 × V128)
    (K6 : V128 → V128 → V128 → V128 → V128 → V128 → V128 × V128 × V128 × V128 × V128 × V128)
    (parallel : Bool) (xorIn : Option (Nat → V128)) (xorInput : Bool) (inp : Nat → V128) :
    ∀ length idx, (advLoop K2 K6 parallel xorIn xorInput inp idx length).2 = length % 16
      ∧ (advLoop K2 K6 parallel xorIn xorInput inp idx length).1.length = length / 16 := by
  intro length
  induction length using Nat.strong_induction_on with
  | _ length ih =>
    intro idx
    rw [advLoop]
    by_cases h6 : 96 ≤ length ∧ parallel = true
    · rw [dif_pos h6]
      have hr := ih (length - 96) (by omega) (idx + 6)
      refine ⟨?_, ?_⟩
      · simp only [hr.1]
        omega
      · simp only [List.length_cons, hr.2]
        omega
    · rw [dif_neg h6]
      by_cases hp : 32 ≤ length
      · rw [dif_pos hp]
        have hr := ih (length - 32) (by omega) (idx + 2)
        refine ⟨?_, ?_⟩
        · simp only [hr.1]
          omega
        · simp only [List.length_cons, hr.2]
          omega
      · rw [dif_neg hp]
        by_cases hs : 16 ≤ length
        · rw [dif_pos hs]
          have hr := ih (length - 16) (by omega) (idx + 1)
          refine ⟨?_, ?_⟩
          · simp only [hr.1]
            omega
          · simp only [List.length_cons, hr.2]
            omega
        · rw [dif_neg hs]
          exact ⟨by omega, by simp only [List.length_nil]; omega⟩

theorem simonEncTail6_eq (rk : V128) (s1 s2 s3 : V128 × V128) :
    simonEncTail6 rk (s1, s2, s3)
      = (simonEncTail rk s1, simonEncTail rk s2, simonEncTail rk s3) := rfl

theorem simonDecTail6_eq (rk : V128) (s1 s2 s3 : V128 × V128) :
    simonDecTail6 rk (s1, s2, s3)
      = (simonDecTail rk s1, simonDecTail rk s2, simonDecTail rk s3) := rfl

/-! ## The claims -/

/-- C1: for every key schedule `K` with an accepted round count
(SPECK-128 uses 32/33/34 rounds, SIMON-128 uses 68/69/72; the theorems
cover every count up to `2^31`, SIMON needing at least 2 by the
wraparound of its loop bound), presented to the encryption kernel in
the pre-splatted layout and to the decryption kernel in the scalar
layout, and for every 128-bit block pair, the decryption kernel
applied to the output of the encryption kernel returns the input:
`Dec(K, Enc(K, B)) = B`, for SPECK-128 and for SIMON-128. -/
theorem roundTrip_C1 :
    (∀ (K esub dsub : Nat → Nat) (rounds : Nat) (b0 b1 : V128),
      (∀ i, i < rounds → esub (i * 2) = K i) → (∀ i, i < rounds → esub (i * 2 + 1) = K i) →
      (∀ i, i < rounds → dsub i = K i) → rounds ≤ 2 ^ 31 → Bounded b0 → Bounded b1 →
      SPECK128_Dec_Block_SSE dsub rounds (SPECK128_Enc_Block_SSE esub rounds b0 b1).1
        (SPECK128_Enc_Block_SSE esub rounds b0 b1).2 = (b0, b1))
    ∧ (∀ (K esub dsub : Nat → Nat) (rounds : Nat) (b0 b1 : V128),
      (∀ i, i < rounds → esub (i * 2) = K i) → (∀ i, i < rounds → esub (i * 2 + 1) = K i) →
      (∀ i, i < rounds → dsub i = K i) → 2 ≤ rounds → rounds < 2 ^ 31 →
      Bounded b0 → Bounded b1 →
      SIMON128_Dec_Block_SSE dsub rounds (SIMON128_Enc_Block_SSE esub rounds b0 b1).1
        (SIMON128_Enc_Block_SSE esub rounds b0 b1).2 = (b0, b1)) :=
  ⟨fun _ _ _ _ _ _ h1 h2 h3 hr hb0 hb1 => SPECK128_SSE_roundTrip h1 h2 h3 hr hb0 hb1,
   fun _ _ _ _ _ _ h1 h2 h3 h2r hr hb0 hb1 => SIMON128_SSE_roundTrip h1 h2 h3 h2r hr hb0 hb1⟩

theorem roundTrip_C1_witness :
    SPECK128_Dec_Block_SSE (fun i => i + 11) 2
      (SPECK128_Enc_Block_SSE (fun j => j / 2 + 11) 2 ⟨1, 2⟩ ⟨3, 4⟩).1
      (SPECK128_Enc_Block_SSE (fun j => j / 2 + 11) 2 ⟨1, 2⟩ ⟨3, 4⟩).2 = (⟨1, 2⟩, ⟨3, 4⟩)
    ∧ SIMON128_Dec_Block_SSE (fun i => i + 11) 2
      (SIMON128_Enc_Block_SSE (fun j => j / 2 + 11) 2 ⟨1, 2⟩ ⟨3, 4⟩).1
      (SIMON128_Enc_Block_SSE (fun j => j / 2 + 11) 2 ⟨1, 2⟩ ⟨3, 4⟩).2 = (⟨1, 2⟩, ⟨3, 4⟩) :=
  ⟨roundTrip_C1.1 (fun i => i + 11) (fun j => j / 2 + 11) (fun i => i + 11) 2 ⟨1, 2⟩ ⟨3, 4⟩
     (by decide) (by decide) (by decide) (by decide) (by decide) (by decide),
   roundTrip_C1.2 (fun i => i + 11) (fun j => j / 2 + 11) (fun i => i + 11) 2 ⟨1, 2⟩ ⟨3, 4⟩
     (by decide) (by decide) (by decide) (by decide) (by decide) (by decide) (by decide)⟩

set_option maxRecDepth 10000 in
/-- C2: encrypting the block with X half `6c61766975716520` and Y half
`7469206564616d20` (block layout: Y in the low lane, X in the high
lane) with the SPECK-128/128 schedule of key
`0f0e0d0c0b0a0908 0706050403020100` over 32 rounds produces the block
with X half `a65d985179783265` and Y half `7860fedf5c570d18`.  The
input block fills both slots of the pair kernel, and both outputs
agree. -/
theorem speck128_testVector_C2 :
    SPECK128_Enc_Block_SSE
      (fun j => speckKS 0x0f0e0d0c0b0a0908 0x0706050403020100 (j / 2)) 32
      ⟨0x7469206564616d20, 0x6c61766975716520⟩ ⟨0x7469206564616d20, 0x6c61766975716520⟩
      = (⟨0x7860fedf5c570d18, 0xa65d985179783265⟩,
         ⟨0x7860fedf5c570d18, 0xa65d985179783265⟩) := by
  decide

/-- C3: one iteration of the SPECK encryption loop computes
`x ← (rotr64<8>(x) + y) ⊕ k[i]` then `y ← rotl64<3>(y) ⊕ x`, and one
iteration of the decryption loop computes `y ← rotr64<3>(y ⊕ x)` then
`x ← rotl64<8>((x ⊕ k[i]) − y)` with the updated `y` (addition and
subtraction mod `2^64`), lanewise on both 64-bit lanes. -/
theorem speckRound_spec_C3 (k : V128) (s : V128 × V128) :
    speckEncRound k s
      = (⟨(speckEncRound_spec k.lo s.1.lo s.2.lo).1, (speckEncRound_spec k.hi s.1.hi s.2.hi).1⟩,
         ⟨(speckEncRound_spec k.lo s.1.lo s.2.lo).2, (speckEncRound_spec k.hi s.1.hi s.2.hi).2⟩)
    ∧ speckDecRound k s
      = (⟨(speckDecRound_spec k.lo s.1.lo s.2.lo).1, (speckDecRound_spec k.hi s.1.hi s.2.hi).1⟩,
         ⟨(speckDecRound_spec k.lo s.1.lo s.2.lo).2, (speckDecRound_spec k.hi s.1.hi s.2.hi).2⟩) :=
  ⟨rfl, rfl⟩

/-- C4: for every odd rounds count in range (at least 3 — the loop
bound wraps below 2 — and below `2^31`, e.g. 69), the SIMON
encryption kernel runs the paired loop and then one final single-round
update with `k[rounds-1]` followed by a register swap, the decryption
kernel first swaps, runs the single final round with `k[rounds-1]` and
decrements `rounds` before its paired loop, and decryption is the
exact inverse of encryption. -/
theorem simon_oddRounds_inverse_C4 (sub : Nat → Nat) (rounds : Nat) (b0 b1 : V128)
    (hodd : rounds % 2 = 1) (h3 : 3 ≤ rounds) (h31 : rounds < 2 ^ 31)
    (hb0 : Bounded b0) (hb1 : Bounded b1) :
    SIMON128_Dec_Block_NEON sub rounds (SIMON128_Enc_Block_NEON sub rounds b0 b1).1
      (SIMON128_Enc_Block_NEON sub rounds b0 b1).2 = (b0, b1) :=
  SIMON128_NEON_roundTrip sub (by omega) h31 hb0 hb1

theorem simon_oddRounds_inverse_C4_witness :
    SIMON128_Dec_Block_NEON (fun i => i * i + 5) 3
      (SIMON128_Enc_Block_NEON (fun i => i * i + 5) 3 ⟨6, 7⟩ ⟨8, 9⟩).1
      (SIMON128_Enc_Block_NEON (fun i => i * i + 5) 3 ⟨6, 7⟩ ⟨8, 9⟩).2 = (⟨6, 7⟩, ⟨8, 9⟩) :=
  simon_oddRounds_inverse_C4 (fun i => i * i + 5) 3 ⟨6, 7⟩ ⟨8, 9⟩
    (by decide) (by decide) (by decide) (by decide) (by decide)

/-- C5: for both ciphers and both directions, and for every key
storage, rounds count and six-block input, the 6-block kernel produces
exactly the 1-pair kernel applied to the three block pairs
independently. -/
theorem kernels6_agree_C5 (sub : Nat → Nat) (rounds : Nat) (b0 b1 b2 b3 b4 b5 : V128) :
    SPECK128_Enc_6_Blocks_SSE sub rounds b0 b1 b2 b3 b4 b5
      = ((SPECK128_Enc_Block_SSE sub rounds b0 b1).1, (SPECK128_Enc_Block_SSE sub rounds b0 b1).2,
         (SPECK128_Enc_Block_SSE sub rounds b2 b3).1, (SPECK128_Enc_Block_SSE sub rounds b2 b3).2,
         (SPECK128_Enc_Block_SSE sub rounds b4 b5).1, (SPECK128_Enc_Block_SSE sub rounds b4 b5).2)
    ∧ SPECK128_Dec_6_Blocks_SSE sub rounds b0 b1 b2 b3 b4 b5
      = ((SPECK128_Dec_Block_SSE sub rounds b0 b1).1, (SPECK128_Dec_Block_SSE sub rounds b0 b1).2,
         (SPECK128_Dec_Block_SSE sub rounds b2 b3).1, (SPECK128_Dec_Block_SSE sub rounds b2 b3).2,
         (SPECK128_Dec_Block_SSE sub rounds b4 b5).1, (SPECK128_Dec_Block_SSE sub rounds b4 b5).2)
    ∧ SIMON128_Enc_6_Blocks_SSE sub rounds b0 b1 b2 b3 b4 b5
      = ((SIMON128_Enc_Block_SSE sub rounds b0 b1).1, (SIMON128_Enc_Block_SSE sub rounds b0 b1).2,
         (SIMON128_Enc_Block_SSE sub rounds b2 b3).1, (SIMON128_Enc_Block_SSE sub rounds b2 b3).2,
         (SIMON128_Enc_Block_SSE sub rounds b4 b5).1, (SIMON128_Enc_Block_SSE sub rounds b4 b5).2)
    ∧ SIMON128_Dec_6_Blocks_SSE sub rounds b0 b1 b2 b3 b4 b5
      = ((SIMON128_Dec_Block_SSE sub rounds b0 b1).1, (SIMON128_Dec_Block_SSE sub rounds b0 b1).2,
         (SIMON128_Dec_Block_SSE sub rounds b2 b3).1, (SIMON128_Dec_Block_SSE sub rounds b2 b3).2,
         (SIMON128_Dec_Block_SSE sub rounds b4 b5).1, (SIMON128_Dec_Block_SSE sub rounds b4 b5).2) := by
  refine ⟨?_, ?_, ?_, ?_⟩
  · simp only [SPECK128_Enc_6_Blocks_SSE, SPECK128_Enc_Block_SSE]
    rw [speckEncLoop6_eq]
  · simp only [SPECK128_Dec_6_Blocks_SSE, SPECK128_Dec_Block_SSE]
    rw [speckDecLoop6_eq]
  · simp only [SIMON128_Enc_6_Blocks_SSE, SIMON128_Enc_Block_SSE]
    rw [simonEncPairLoop6_eq]
    by_cases ho : rounds % 2 = 1
    · simp only [if_pos ho]
      rw [simonEncTail6_eq]
    · simp only [if_neg ho]
  · simp only [SIMON128_Dec_6_Blocks_SSE, SIMON128_Dec_Block_SSE]
    by_cases ho : rounds % 2 = 1
    · simp only [if_pos ho]
      rw [simonDecTail6_eq, simonDecPairLoop6_eq]
    · simp only [if_neg ho]
      rw [simonDecPairLoop6_eq]

/-- C6: for every 128-bit vector, the byte-permute specializations of
`RotateLeft64<8>` and `RotateRight64<8>` (SSE `_mm_shuffle_epi8` and
NEON `vqtbl1q_u8` with the rotate-one-byte tables) equal the generic
shift/shift/or rotates, lanewise. -/
theorem rotate8_bytePermute_C6 (v : V128) :
    RotateLeft64_8_SSE v = vrotl 8 v ∧ RotateRight64_8_SSE v = vrotr 8 v
    ∧ RotateLeft64_8_NEON v = vrotl 8 v ∧ RotateRight64_8_NEON v = vrotr 8 v := by
  obtain ⟨lo, hi⟩ := v
  have hL : pshufb ⟨lo, hi⟩ maskRotL8 = vrotl 8 ⟨lo, hi⟩ := by
    rw [pshufb_maskL8]
    show _ = V128.mk (rotl 8 lo) (rotl 8 hi)
    rw [← rotl8_bytes lo, ← rotl8_bytes hi]
  have hR : pshufb ⟨lo, hi⟩ maskRotR8 = vrotr 8 ⟨lo, hi⟩ := by
    rw [pshufb_maskR8]
    show _ = V128.mk (rotr 8 lo) (rotr 8 hi)
    rw [← rotr8_bytes lo, ← rotr8_bytes hi]
  exact ⟨hL, hR, (vqtbl_maskL8 lo hi).trans hL, (vqtbl_maskR8 lo hi).trans hR⟩

/-- C7: for every block pair, the kernel-exit detranspose
(`block0 = UnpackLow64(Yv, Xv)`, `block1 = UnpackHigh64(Yv, Xv)`)
undoes the kernel-entry transpose (`Xv = UnpackHigh64(block0, block1)`,
`Yv = UnpackLow64(block0, block1)`). -/
theorem transpose_roundTrip_C7 (b0 b1 : V128) :
    detransposePair (transposePair b0 b1) = (b0, b1) := rfl

/-- C8 counterexample: the NEON SPECK encryption kernel does not read
its round keys at `subkeys + i*2`: on the key storage `j ↦ j` with one
round it disagrees with the kernel that does index `subkeys + i*2`
(the SSE kernel), so the claim fails on the NEON backend. -/
theorem speck_enc_neon_not_presplat_C8 :
    SPECK128_Enc_Block_NEON (fun j => j) 1 ⟨0, 0⟩ ⟨0, 0⟩
      ≠ SPECK128_Enc_Block_SSE (fun j => j) 1 ⟨0, 0⟩ ⟨0, 0⟩ := by
  decide

/-- C8 amended: the SSE encryption kernels index the pre-splatted
layout at `subkeys + i*2`; the NEON kernels (both directions) and the
SSE decryption kernels index the scalar layout at `subkeys + i` and
broadcast; under matching layouts every kernel consumes exactly
`k[i]`, duplicated into both lanes, at round `i`, so corresponding
kernels agree across backends. -/
theorem keyLayout_agreement_C8 (K esub ssub : Nat → Nat) (rounds : Nat) (b0 b1 : V128)
    (h1 : ∀ i, i < rounds → esub (i * 2) = K i)
    (h2 : ∀ i, i < rounds → esub (i * 2 + 1) = K i)
    (h3 : ∀ i, i < rounds → ssub i = K i)
    (hr : 2 ≤ rounds) (h31 : rounds < 2 ^ 31) :
    SPECK128_Enc_Block_SSE esub rounds b0 b1 = SPECK128_Enc_Block_NEON ssub rounds b0 b1
    ∧ SIMON128_Enc_Block_SSE esub rounds b0 b1 = SIMON128_Enc_Block_NEON ssub rounds b0 b1
    ∧ SPECK128_Dec_Block_SSE ssub rounds b0 b1 = SPECK128_Dec_Block_NEON ssub rounds b0 b1
    ∧ SIMON128_Dec_Block_SSE ssub rounds b0 b1 = SIMON128_Dec_Block_NEON ssub rounds b0 b1 := by
  have hkey : ∀ i, i < rounds → load128 esub (i * 2) = dup64 (ssub i) := by
    intro i hi
    show (⟨esub (i * 2), esub (i * 2 + 1)⟩ : V128) = ⟨ssub i, ssub i⟩
    rw [h1 i hi, h2 i hi, h3 i hi]
  refine ⟨?_, ?_, rfl, rfl⟩
  · exact congrArg detransposePair (speckEncLoop_congr rounds hkey (transposePair b0 b1))
  · simp only [SIMON128_Enc_Block_SSE, SIMON128_Enc_Block_NEON]
    have hloop := @simonEncPairLoop_congr (fun i => load128 esub (i * 2))
      (fun i => dup64 (ssub i)) (simonEncIterCount rounds)
      (fun i hi => hkey i (by
        rw [simonEncIterCount_eq hr (by omega)] at hi
        omega)) (transposePair b0 b1)
    rw [hloop]
    by_cases ho : rounds % 2 = 1
    · simp only [if_pos ho]
      rw [hkey (rounds - 1) (by omega)]
    · simp only [if_neg ho]

theorem keyLayout_agreement_C8_witness :
    SPECK128_Enc_Block_SSE (fun j => j / 2 + 3) 2 ⟨1, 2⟩ ⟨3, 4⟩
      = SPECK128_Enc_Block_NEON (fun i => i + 3) 2 ⟨1, 2⟩ ⟨3, 4⟩
    ∧ SIMON128_Enc_Block_SSE (fun j => j / 2 + 3) 2 ⟨1, 2⟩ ⟨3, 4⟩
      = SIMON128_Enc_Block_NEON (fun i => i + 3) 2 ⟨1, 2⟩ ⟨3, 4⟩
    ∧ SPECK128_Dec_Block_SSE (fun i => i + 3) 2 ⟨1, 2⟩ ⟨3, 4⟩
      = SPECK128_Dec_Block_NEON (fun i => i + 3) 2 ⟨1, 2⟩ ⟨3, 4⟩
    ∧ SIMON128_Dec_Block_SSE (fun i => i + 3) 2 ⟨1, 2⟩ ⟨3, 4⟩
      = SIMON128_Dec_Block_NEON (fun i => i + 3) 2 ⟨1, 2⟩ ⟨3, 4⟩ :=
  keyLayout_agreement_C8 (fun i => i + 3) (fun j => j / 2 + 3) (fun i => i + 3) 2 ⟨1, 2⟩ ⟨3, 4⟩
    (by decide) (by decide) (by decide) (by decide) (by decide)

/-- C9 (driver modelled from the spec, `adv_simd.h` not being part of
the source excerpt): a call with `length = 0` returns 0 and produces no
output; in general the returned unprocessed tail byte count is
`length % 16` — so a `length` that is not a multiple of 16 returns the
tail — and exactly `length / 16` whole 16-byte blocks are processed. -/
theorem advancedProcessBlocks_contract_C9 (K2 : V128 → V128 → V128 × V128)
    (K6 : V128 → V128 → V128 → V128 → V128 → V128 → V128 × V128 × V128 × V128 × V128 × V128)
    (parallel : Bool) (xorIn : Option (Nat → V128)) (xorInput : Bool) (inp : Nat → V128) :
    AdvancedProcessBlocks128_6x2 K2 K6 parallel xorIn xorInput inp 0 = ([], 0)
    ∧ ∀ length,
      (AdvancedProcessBlocks128_6x2 K2 K6 parallel xorIn xorInput inp length).2 = length % 16
      ∧ (AdvancedProcessBlocks128_6x2 K2 K6 parallel xorIn xorInput inp length).1.length
          = length / 16 := by
  refine ⟨?_, fun length => advLoop_contract K2 K6 parallel xorIn xorInput inp length 0⟩
  obtain ⟨h1, h2⟩ := advLoop_contract K2 K6 parallel xorIn xorInput inp 0 0
  exact Prod.ext (List.length_eq_zero.mp h2) h1

/-- C10: for every `2 ≤ rounds < 2^32` the SIMON encryption kernels
run `floor(rounds/2)` paired-loop iterations plus one tail round when
`rounds` is odd, hence exactly `rounds` single-round updates; for
`rounds < 2` the `size_t` loop bound `(rounds & ~1) - 1` wraps to
`2^64 - 1`, so the update count explodes and `rounds ≥ 2` is a
necessary precondition. -/
theorem simon_enc_trip_count_C10 :
    (∀ rounds, 2 ≤ rounds → rounds < 2 ^ 32 →
      simonEncIterCount rounds = rounds / 2 ∧ simonEncUpdates rounds = rounds)
    ∧ simonLoopBound 0 = 2 ^ 64 - 1 ∧ simonLoopBound 1 = 2 ^ 64 - 1
    ∧ simonEncUpdates 0 = 2 ^ 64 ∧ simonEncUpdates 1 = 2 ^ 64 + 1 := by
  refine ⟨fun rounds h2 h32 => ?_, by decide, by decide, by decide, by decide⟩
  have h := simonEncIterCount_eq h2 h32
  refine ⟨h, ?_⟩
  unfold simonEncUpdates
  rw [h]
  omega

theorem simon_enc_trip_count_C10_witness :
    simonEncIterCount 69 = 34 ∧ simonEncUpdates 69 = 69 := by
  have h := simon_enc_trip_count_C10.1 69 (by decide) (by decide)
  exact ⟨h.1.trans (by norm_num), h.2⟩

end SpeckSimd
